import Mathlib

/-!
Path resolution in `importer/resolver.c`

A shallow embedding of the path resolver of c-ipfs (`src/importer/resolver.c`):
the path segmenter `ipfs_resolver_next_path`, the path normalizer
`ipfs_resolver_remove_path_prefix`, the remote classifier
`ipfs_resolver_is_remote`, the remote fetcher `ipfs_resolver_remote_get` and the
recursive resolver `ipfs_resolver_get`.

Conventions of the embedding.

* A C string is the list of its characters before the terminating NUL
  (`CStr`).  A pointer `&path[pos]` into a string is the offset `pos`; the
  string it points at is `path.drop pos`.
* Reading `path[i]` is defined for `i ≤ strlen(path)` (the terminator is
  readable) and undefined beyond it.
* A C function that may run into undefined behaviour returns an `Outcome`.
* Loops are structural recursions on a fuel counter; the entry points supply
  fuel that the loop cannot exhaust.
-/

namespace Resolver

/-- The characters of a C string, terminator excluded. -/
abbrev CStr := List Char

/-- What a call produces: a value, undefined behaviour of the C program
(a read past the terminator, the use of an unwritten pointer), or an
exhausted fuel counter. -/
inductive Outcome (α : Type) where
  | ret (v : α)
  | undef
  | nofuel
  deriving DecidableEq, Repr

/-- The read `s[i]`: a character of the string, the terminating NUL at
`i = strlen(s)`, and nothing beyond. -/
def c_index (s : CStr) (i : Nat) : Option Char :=
  match s[i]? with
  | some c => some c
  | none => if i = s.length then some (Char.ofNat 0) else none

/-- The test `strncmp(s, t, n) == 0`: both strings agree on their first `n`
characters, a string that ends earlier agreeing only with one that ends at the
same place. -/
def strncmp_eq (s t : CStr) (n : Nat) : Bool :=
  s.take n == t.take n

/-- The test `strcmp(s, t) == 0`. -/
def strcmp_eq (s t : CStr) : Bool :=
  s == t

/-- The call `strchr(s, c)` for a character `c` other than NUL: the offset of
the first `c` in `s`, or `none` for a NULL result. -/
def strchr (s : CStr) (c : Char) : Option Nat :=
  match s with
  | [] => none
  | d :: rest => if d = c then some 0 else (strchr rest c).map (· + 1)

/-- The `for` loop of `ipfs_resolver_next_path` (lines 21-34), entered with
`cur = &path[i]`.  At the first character other than `'/'` the segment is
produced and the function returns 1. -/
def next_path_from (path : CStr) : CStr → Option CStr
  | [] => none
  | c :: rest =>
    if c ≠ '/' then
      match strchr rest '/' with
      | none => some path
      | some k => some ((c :: rest).take (k + 1))
    else next_path_from path rest

/-- The function `ipfs_resolver_next_path(path, &next_part)`: `some seg` when it
returns 1 with `*next_part = seg`, `none` when it returns 0, in which case
`*next_part` is not written. -/
def ipfs_resolver_next_path (path : CStr) : Option CStr :=
  next_path_from path path

/-- The loop of `ipfs_resolver_remove_path_prefix` (lines 47-63), entered at
offset `pos` with `first_non_slash` (`none` for -1).  The loop condition
`&path[pos] != NULL` compares an address inside the string with NULL and is
true in every iteration, so the loop is left only through the `return` of
line 60; the result is that pointer, as an offset into `path`. -/
def remove_path_prefix_loop (path peer_id : CStr) :
    Nat → Nat → Option Nat → Outcome (Option Nat)
  | 0, _, _ => .nofuel
  | fuel + 1, pos, first_non_slash =>
    match c_index path pos with
    | none => .undef
    | some c =>
      if c = '/' then
        remove_path_prefix_loop path peer_id fuel (pos + 1) first_non_slash
      else
        let first_non_slash := first_non_slash.getD pos
        if pos = first_non_slash ∧
            (strncmp_eq (path.drop pos) "ipfs".toList 4
              ∨ strncmp_eq (path.drop pos) "ipns".toList 4) then
          remove_path_prefix_loop path peer_id fuel (pos + 4) (some first_non_slash)
        else if strncmp_eq (path.drop pos) peer_id peer_id.length then
          remove_path_prefix_loop path peer_id fuel (pos + (peer_id.length + 1))
            (some first_non_slash)
        else .ret (some pos)

/-- The function `ipfs_resolver_remove_path_prefix(path, fs_repo)`, with
`peer_id` for `fs_repo->config->identity->peer_id`: `ret (some k)` for the
pointer `&path[k]`, `ret none` for NULL.  Every iteration advances `pos` or
returns, and a `pos` beyond the terminator is an undefined read, so
`strlen(path) + 2` iterations are never exceeded. -/
def ipfs_resolver_remove_path_prefix (path peer_id : CStr) : Outcome (Option Nat) :=
  remove_path_prefix_loop path peer_id (path.length + 2) 0 none

/-- The loop of lines 77-79 of `ipfs_resolver_is_remote`: the string at
`&path[pos]` once the leading slashes are skipped. -/
def skip_slashes : CStr → CStr
  | [] => []
  | c :: rest => if c = '/' then skip_slashes rest else c :: rest

/-- The function `ipfs_resolver_is_remote(path, fs_repo)`, `true` for 1. -/
def ipfs_resolver_is_remote (path peer_id : CStr) : Bool :=
  let p := skip_slashes path
  if strncmp_eq p "ipfs/".toList 5 ∨ strncmp_eq p "ipns/".toList 5 then
    let q := p.drop 5
    if c_index q 0 = some 'Q' ∧ c_index q 1 = some 'm' then
      if ¬ strncmp_eq q peer_id peer_id.length then true else false
    else false
  else false

/-- A link of a node (`struct NodeLink`): its name and the hash of its target
(`hash`, `hash_size`). -/
structure NodeLink where
  name : CStr
  hash : List Nat
  deriving DecidableEq, Repr

/-- The content of a merkle DAG node (`struct Node`): its data and its links in
the order of the chain that starts at `head_link`. -/
structure Node where
  data : List Nat
  links : List NodeLink
  deriving DecidableEq, Repr

/-- A `struct Node*` that is not NULL: the address of the allocation and the
node stored there.  Every node the store hands out is a fresh allocation. -/
structure NodePtr where
  addr : Nat
  node : Node
  deriving DecidableEq, Repr

/-- A peer record of the peerstore (`struct Libp2pPeer`): the advertised
addresses, `addr_head` first. -/
structure Libp2pPeer where
  addr_head : List CStr
  deriving DecidableEq, Repr

/-- A connected stream (`struct Stream`), as far as the fetcher uses it: the
bytes its `read` yields. -/
structure Stream where
  response : List Nat
  deriving DecidableEq, Repr

/-- The calls the resolver makes outside of the process, in program order. -/
inductive Event where
  | peerstore_get_peer (id : CStr)
  | connect (ip : CStr) (port : Nat)
  | write (bytes : List Nat)
  | read
  deriving DecidableEq, Repr

/-- The state the resolver acts on: how many nodes have been allocated (the next
one gets this number as its address), the addresses `ipfs_node_free` has been
applied to (latest first), and the external calls made (latest first). -/
structure World where
  allocated : Nat
  freed : List Nat
  io : List Event
  deriving DecidableEq, Repr

/-- The context `struct IpfsNode` and the collaborators of the resolver, which
are not part of `resolver.c` and are parameters here: the local peer
identifier, the base58 decoder, the two lookups of the node store, the
directory test, the peerstore, the address parser, the transport and the
codec.  A lookup yields the node it stores through its output parameter, or
`none` when it reports failure.  The node decoder yields the node it stores
through its output parameter, or `none` when it stores none; the fetcher does
not look at its status. -/
structure IpfsNode where
  peer_id : CStr
  base58_decode : CStr → Option (List Nat)
  get_by_multihash : List Nat → Option Node
  merkledag_get : List Nat → Option Node
  is_directory : Node → Bool
  peerstore_get_peer : CStr → Option Libp2pPeer
  multiaddress_parse_ip4_tcp : CStr → CStr × Nat
  multistream_connect : CStr → Nat → Option Stream
  message_protobuf_encode : CStr → List Nat
  node_protobuf_decode : List Nat → Option Node

/-- A node of the store placed in a fresh allocation. -/
def World.alloc (w : World) (node : Node) : NodePtr × World :=
  (⟨w.allocated, node⟩, { w with allocated := w.allocated + 1 })

/-- The call `ipfs_node_free(p)`. -/
def World.free (w : World) (p : NodePtr) : World :=
  { w with freed := p.addr :: w.freed }

/-- An external call recorded. -/
def World.log (w : World) (e : Event) : World :=
  { w with io := e :: w.io }

/-- The result of a resolver call: the returned pointer (`none` for NULL) and the
state on return. -/
abbrev Resolved := Outcome (Option NodePtr × World)

/-- The function `ipfs_resolver_remote_get(path, from, ipfs_node)`.  The write
`pos[0] = 0` of line 122 ends the key in place, so the key of the request is
the text up to that `'/'`; the change it makes to the caller's buffer is not
part of the state.  Lines 150-152 return the local `node` without looking at
the status of the decoder: when the decoder has stored no node, the pointer
returned is an unwritten one. -/
def ipfs_resolver_remote_get (ipfs_node : IpfsNode) (path : CStr) (w : World) : Resolved :=
  match ipfs_resolver_remove_path_prefix path ipfs_node.peer_id with
  | .undef => .undef
  | .nofuel => .nofuel
  | .ret none => .ret (none, w)
  | .ret (some k) =>
    let temp := path.drop k
    match strchr temp '/' with
    | none => .ret (none, w)
    | some id_size =>
      if id_size > 254 then .ret (none, w)
      else
        let id := temp.take id_size
        let key := temp.drop (id_size + 1)
        match strchr key '/' with
        | none => .ret (none, w)
        | some key_size =>
          if key_size > 254 then .ret (none, w)
          else
            let key := key.take key_size
            let w := w.log (.peerstore_get_peer id)
            match ipfs_node.peerstore_get_peer id with
            | none => .ret (none, w)
            | some peer =>
              match peer.addr_head with
              | [] => .undef
              | address :: _ =>
                let (ip, port) := ipfs_node.multiaddress_parse_ip4_tcp address
                let w := w.log (.connect ip port)
                match ipfs_node.multistream_connect ip port with
                | none => .undef
                | some stream =>
                  let w := w.log (.write (ipfs_node.message_protobuf_encode key))
                  let w := w.log .read
                  if stream.response.length = 1 then .ret (none, w)
                  else
                    match ipfs_node.node_protobuf_decode stream.response with
                    | none => .undef
                    | some node =>
                      let (p, w) := w.alloc node
                      .ret (some p, w)

/-- Lines 176-256 of `ipfs_resolver_get`: what a call does once the remote
shortcut of lines 167-169 is passed.  The argument `recurse` stands for the
recursive calls of lines 207 and 239.  The `while` loop over the links returns
inside its first iteration whose link name equals `path_section`, which is the
link `List.find?` yields; when no link matches, control reaches line 251. -/
def resolver_get_local (ipfs_node : IpfsNode)
    (recurse : CStr → Option NodePtr → World → Resolved)
    (path : CStr) (from_node : Option NodePtr) (w : World) : Resolved :=
  let normalized : Outcome (Option CStr) :=
    match from_node with
    | none =>
      match ipfs_resolver_remove_path_prefix path ipfs_node.peer_id with
      | .ret (some k) => .ret (some (path.drop k))
      | .ret none => .ret none
      | .undef => .undef
      | .nofuel => .nofuel
    | some _ => .ret (some path)
  match normalized with
  | .undef => .undef
  | .nofuel => .nofuel
  | .ret none => .undef
  | .ret (some path) =>
    match ipfs_resolver_next_path path with
    | none => .ret (none, w)
    | some path_section =>
      match from_node with
      | none =>
        if c_index path_section 0 = some 'Q' ∧ c_index path_section 1 = some 'm' then
          match ipfs_node.base58_decode path_section with
          | none => .ret (none, w)
          | some hash =>
            match ipfs_node.get_by_multihash hash with
            | none => .ret (none, w)
            | some node =>
              let (current_node, w) := w.alloc node
              if path_section.length = path.length then .ret (some current_node, w)
              else recurse (path.drop (path_section.length + 1)) (some current_node) w
        else .ret (none, w)
      | some from_ptr =>
        if ipfs_node.is_directory from_ptr.node then
          match from_ptr.node.links.find? (fun curr_link => strcmp_eq curr_link.name path_section) with
          | some curr_link =>
            match ipfs_node.merkledag_get curr_link.hash with
            | none => .ret (none, w)
            | some node =>
              let (current_node, w) := w.alloc node
              if path_section.length = path.length then
                .ret (some current_node, w.free from_ptr)
              else
                match ipfs_resolver_next_path (path.drop path_section.length) with
                | none => .undef
                | some next_path_section =>
                  recurse next_path_section (some current_node) (w.free from_ptr)
          | none => .ret (none, w.free from_ptr)
        else .ret (none, w)

/-- The function `ipfs_resolver_get(path, from, ipfs_node)` on a fuel counter
that bounds the depth of its recursion. -/
def resolver_get_fuel (ipfs_node : IpfsNode) :
    Nat → CStr → Option NodePtr → World → Resolved
  | 0, _, _, _ => .nofuel
  | fuel + 1, path, from_node, w =>
    if from_node = none ∧ ipfs_resolver_is_remote path ipfs_node.peer_id then
      ipfs_resolver_remote_get ipfs_node path w
    else
      resolver_get_local ipfs_node (resolver_get_fuel ipfs_node fuel) path from_node w

/-- The function `ipfs_resolver_get(path, from, ipfs_node)`.  Every recursive
call is on a shorter path, so a depth of `strlen(path) + 1` is never
exceeded. -/
def ipfs_resolver_get (ipfs_node : IpfsNode) (path : CStr) (from_node : Option NodePtr)
    (w : World) : Resolved :=
  resolver_get_fuel ipfs_node (path.length + 1) path from_node w

/-- Resolution against the local store: `ipfs_resolver_get` entered without a
current node, the remote shortcut left out. -/
def local_resolution (ipfs_node : IpfsNode) (path : CStr) (w : World) : Resolved :=
  resolver_get_local ipfs_node (resolver_get_fuel ipfs_node path.length) path none w

/-- The state before a call: nothing allocated, freed or sent. -/
def World.init : World := ⟨0, [], []⟩

/-- A small store for the examples: `QmR` decodes to the identifier of a
directory with a link `a` to a directory that has a link `b` to a directory
that has a link `c` to a leaf. -/
def demo_leaf : Node := ⟨[4], []⟩

/-- The node behind `a/b`. -/
def demo_b : Node := ⟨[3], [⟨"c".toList, [14]⟩]⟩

/-- The node behind `a`. -/
def demo_a : Node := ⟨[2], [⟨"b".toList, [13]⟩]⟩

/-- The root of the example store. -/
def demo_root : Node := ⟨[1], [⟨"a".toList, [12]⟩]⟩

/-- The example context: local identity `QmL`, the store above, no peers. -/
def demo : IpfsNode where
  peer_id := "QmL".toList
  base58_decode := fun s => if s = "QmR".toList then some [18, 32, 11] else none
  get_by_multihash := fun h => if h = [18, 32, 11] then some demo_root else none
  merkledag_get := fun h =>
    if h = [12] then some demo_a
    else if h = [13] then some demo_b
    else if h = [14] then some demo_leaf
    else none
  is_directory := fun n => !n.links.isEmpty
  peerstore_get_peer := fun _ => none
  multiaddress_parse_ip4_tcp := fun _ => ([], 0)
  multistream_connect := fun _ _ => none
  message_protobuf_encode := fun _ => []
  node_protobuf_decode := fun _ => none

/-- The example context with a local identity that begins with `'/'`. -/
def demo_slash_id : IpfsNode := { demo with peer_id := "/QmL".toList }

/-- The first segment of a text: its characters up to the first `'/'`, or all
of it when it has none. -/
def first_segment (s : CStr) : CStr :=
  s.takeWhile (· ≠ '/')

/-- Reference step of the multi-level claim: from a directory-like node, the
target of its first link named `name`, looked up in the store. -/
def follow_first_link (ipfs_node : IpfsNode) (node : Node) (name : CStr) : Option Node :=
  if ipfs_node.is_directory node then
    match node.links.find? (fun l => l.name = name) with
    | some l => ipfs_node.merkledag_get l.hash
    | none => none
  else none

/-- Reference of the multi-level claim: the left fold of `follow_first_link`
over the link names. -/
def follow_links (ipfs_node : IpfsNode) : Node → List CStr → Option Node
  | node, [] => some node
  | node, name :: names =>
    match follow_first_link ipfs_node node name with
    | some target => follow_links ipfs_node target names
    | none => none

/-- Lines 123-152 of `ipfs_resolver_remote_get`: what the fetcher does once the
path is parsed into the peer identifier `id` and the key `key`.  The result
after a decoder that has stored no node is the unwritten local `node`. -/
def remote_get_request (ipfs_node : IpfsNode) (id key : CStr) (w : World) : Resolved :=
  let w := w.log (.peerstore_get_peer id)
  match ipfs_node.peerstore_get_peer id with
  | none => .ret (none, w)
  | some peer =>
    match peer.addr_head with
    | [] => .undef
    | address :: _ =>
      let (ip, port) := ipfs_node.multiaddress_parse_ip4_tcp address
      let w := w.log (.connect ip port)
      match ipfs_node.multistream_connect ip port with
      | none => .undef
      | some stream =>
        let w := w.log (.write (ipfs_node.message_protobuf_encode key))
        let w := w.log .read
        if stream.response.length = 1 then .ret (none, w)
        else
          match ipfs_node.node_protobuf_decode stream.response with
          | none => .undef
          | some node =>
            let (p, w) := w.alloc node
            .ret (some p, w)

/-- A directory with two links named `a`: the target of the first one is not in
the example store, the target of the second one is. -/
def demo_twins : Node := ⟨[5], [⟨"a".toList, [99]⟩, ⟨"a".toList, [12]⟩]⟩

/-- The example context with a peer `QmB` that answers every request with the
bytes `[7, 7, 7]`, which decode to the leaf. -/
def demo_remote : IpfsNode :=
  { demo with
    peerstore_get_peer := fun id =>
      if id = "QmB".toList then some ⟨["/ip4/10.0.0.2/tcp/4001".toList]⟩ else none
    multiaddress_parse_ip4_tcp := fun _ => ("10.0.0.2".toList, 4001)
    multistream_connect := fun _ _ => some ⟨[7, 7, 7]⟩
    message_protobuf_encode := fun key => key.map Char.toNat
    node_protobuf_decode := fun bytes => if bytes = [7, 7, 7] then some demo_leaf else none }

/-- A directory with two links named `a` whose targets are both in the example
store. -/
def demo_twins_found : Node := ⟨[6], [⟨"a".toList, [13]⟩, ⟨"a".toList, [12]⟩]⟩

/-- A peer identifier text of 255 characters, one more than the bound. -/
def demo_long_id : CStr := List.replicate 255 'Q'

/-! ## String primitives -/

theorem strncmp_eq_length_iff (s t : CStr) :
    strncmp_eq s t t.length = true ↔ t <+: s := by
  unfold strncmp_eq
  rw [beq_iff_eq, List.take_length, List.prefix_iff_eq_take]
  exact eq_comm

theorem strchr_eq_none (s : CStr) (c : Char) (h : c ∉ s) : strchr s c = none := by
  induction s with
  | nil => rfl
  | cons d rest ih =>
    simp only [List.mem_cons, not_or] at h
    simp [strchr, Ne.symm h.1, ih h.2]

theorem strchr_append (s rest : CStr) (c : Char) (h : c ∉ s) :
    strchr (s ++ c :: rest) c = some s.length := by
  induction s with
  | nil => simp [strchr]
  | cons d s ih =>
    simp only [List.mem_cons, not_or] at h
    simp [strchr, Ne.symm h.1, ih h.2]

/-! ## The segmenter -/

theorem next_path_from_eq_none (path cur : CStr) :
    next_path_from path cur = none ↔ ∀ c ∈ cur, c = '/' := by
  induction cur with
  | nil => simp [next_path_from]
  | cons c rest ih =>
    by_cases hc : c = '/'
    · simp [next_path_from, hc, ih]
    · simp only [next_path_from, hc, ne_eq, not_false_eq_true, if_true, List.mem_cons,
        forall_eq_or_imp, false_and, iff_false]
      cases strchr rest '/' <;> simp

theorem next_path_segment (seg rest : CStr) (hne : seg ≠ []) (hs : '/' ∉ seg) :
    ipfs_resolver_next_path (seg ++ '/' :: rest) = some seg := by
  cases seg with
  | nil => exact absurd rfl hne
  | cons c seg =>
    simp only [List.mem_cons, not_or] at hs
    simp [ipfs_resolver_next_path, next_path_from, Ne.symm hs.1, strchr_append seg rest '/' hs.2]

theorem next_path_last (seg : CStr) (hne : seg ≠ []) (hs : '/' ∉ seg) :
    ipfs_resolver_next_path seg = some seg := by
  cases seg with
  | nil => exact absurd rfl hne
  | cons c seg =>
    simp only [List.mem_cons, not_or] at hs
    simp [ipfs_resolver_next_path, next_path_from, Ne.symm hs.1, strchr_eq_none seg '/' hs.2]

/-- C8. The segmenter returns 0, leaving `*next_part` unwritten, exactly on the
paths that consist of zero or more `'/'` characters and nothing else. -/
theorem next_path_none_iff_all_slashes (path : CStr) :
    ipfs_resolver_next_path path = none ↔ ∀ c ∈ path, c = '/' :=
  next_path_from_eq_none path path

theorem next_path_from_some (path cur seg : CStr) (h : next_path_from path cur = some seg) :
    (seg = path ∨ (0 < seg.length ∧ seg.length ≤ cur.length)) ∧ 0 < cur.length := by
  induction cur with
  | nil => simp [next_path_from] at h
  | cons c rest ih =>
    by_cases hc : c = '/'
    · simp only [next_path_from, hc, ne_eq, not_true_eq_false, if_false] at h
      rcases (ih h).1 with h1 | ⟨h1, h2⟩
      · exact ⟨Or.inl h1, by simp⟩
      · exact ⟨Or.inr ⟨h1, by simp; omega⟩, by simp⟩
    · simp only [next_path_from, hc, ne_eq, not_false_eq_true, if_true] at h
      cases hk : strchr rest '/' with
      | none =>
        rw [hk] at h
        exact ⟨Or.inl (Option.some.inj h).symm, by simp⟩
      | some k =>
        rw [hk] at h
        have := (Option.some.inj h).symm
        subst this
        refine ⟨Or.inr ⟨?_, ?_⟩, by simp⟩
        · simp
        · rw [List.length_take]; exact Nat.min_le_right _ _

/-- A segment the segmenter produces is not empty and not longer than the
path. -/
theorem next_path_some (path seg : CStr) (h : ipfs_resolver_next_path path = some seg) :
    0 < seg.length ∧ seg.length ≤ path.length := by
  have := next_path_from_some path path seg h
  rcases this.1 with h1 | h1
  · subst h1; exact ⟨this.2, Nat.le_refl _⟩
  · exact h1

/-! ## The normalizer -/

theorem c_index_zero_cons (c : Char) (rest : CStr) : c_index (c :: rest) 0 = some c := by
  simp [c_index]

/-- A path that begins with a character other than `'/'`, and with none of the
three tokens, is returned as it is. -/
theorem remove_path_prefix_untouched (c : Char) (rest peer_id : CStr) (hc : c ≠ '/')
    (h1 : strncmp_eq (c :: rest) "ipfs".toList 4 = false)
    (h2 : strncmp_eq (c :: rest) "ipns".toList 4 = false)
    (h3 : ¬ peer_id <+: c :: rest) :
    ipfs_resolver_remove_path_prefix (c :: rest) peer_id = .ret (some 0) := by
  have h4 : strncmp_eq (c :: rest) peer_id peer_id.length = false := by
    rw [← Bool.not_eq_true, strncmp_eq_length_iff]; exact h3
  simp only [ ipfs_resolver_remove_path_prefix, List.length_cons, remove_path_prefix_loop,
    c_index_zero_cons, hc, if_false, Option.getD_none, List.drop_zero, h1, h2, h4]
  simp

theorem strncmp_Qm_ipfs (rest : CStr) :
    strncmp_eq ('Q' :: 'm' :: rest) "ipfs".toList 4 = false := by
  simp [strncmp_eq]

theorem strncmp_Qm_ipns (rest : CStr) :
    strncmp_eq ('Q' :: 'm' :: rest) "ipns".toList 4 = false := by
  simp [strncmp_eq]

theorem is_remote_Qm (rest peer_id : CStr) :
    ipfs_resolver_is_remote ('Q' :: 'm' :: rest) peer_id = false := by
  simp [ipfs_resolver_is_remote, skip_slashes, strncmp_eq]

theorem c_index_append_right (pre s : CStr) (j : Nat) :
    c_index (pre ++ s) (pre.length + j) = c_index s j := by
  simp [c_index, List.getElem?_append_right]

theorem drop_of_getElem? (s : CStr) (j : Nat) (c : Char) (h : s[j]? = some c) :
    s.drop j = c :: s.drop (j + 1) := by
  obtain ⟨hj, rfl⟩ := List.getElem?_eq_some.1 h
  exact List.drop_eq_getElem_cons hj

theorem c_index_of_some (s : CStr) (j : Nat) (c : Char) (h : s[j]? = some c) :
    c_index s j = some c := by
  simp [c_index, h]

theorem c_index_of_none (s : CStr) (j : Nat) (h : s[j]? = none) :
    c_index s j = if j = s.length then some (Char.ofNat 0) else none := by
  simp [c_index, h]

theorem c_index_slash (s : CStr) (j : Nat) (h : c_index s j = some '/') :
    s.drop j = '/' :: s.drop (j + 1) := by
  cases hg : s[j]? with
  | some c =>
    rw [c_index_of_some s j c hg] at h
    exact drop_of_getElem? s j '/' (Option.some.inj h ▸ hg)
  | none =>
    rw [c_index_of_none s j hg] at h
    by_cases hj : j = s.length
    · rw [if_pos hj] at h
      exact absurd (Option.some.inj h) (by decide)
    · rw [if_neg hj] at h
      exact absurd h (by simp)

theorem c_index_skip_slashes (s : CStr) (j : Nat) (c : Char) (h : c_index s j = some c)
    (hc : c ≠ '/') : skip_slashes (s.drop j) = s.drop j := by
  cases hg : s[j]? with
  | some d =>
    rw [c_index_of_some s j d hg] at h
    have hd : d ≠ '/' := Option.some.inj h ▸ hc
    rw [drop_of_getElem? s j d hg]
    simp [skip_slashes, hd]
  | none =>
    rw [List.drop_eq_nil_of_le (List.getElem?_eq_none_iff.1 hg)]
    rfl

theorem c_index_some_le (s : CStr) (j : Nat) (c : Char) (h : c_index s j = some c) :
    j ≤ s.length := by
  cases hg : s[j]? with
  | some d => exact Nat.le_of_lt (List.getElem?_eq_some.1 hg).1
  | none =>
    rw [c_index_of_none s j hg] at h
    by_cases hj : j = s.length
    · exact Nat.le_of_eq hj
    · rw [if_neg hj] at h
      exact absurd h (by simp)

theorem strncmp_eq_length_le (s t : CStr) (h : strncmp_eq s t t.length = true) :
    t.length ≤ s.length :=
  ((strncmp_eq_length_iff s t).1 h).length_le

/-- Two runs of the normalizer loop over the same remaining text `s`, the first
one past its first segment, the second one either past it too or in front of a
segment that begins with neither namespace token: both stop at the same place
of `s`, or both read past the terminator. -/
theorem remove_path_prefix_loop_shift (L pre1 pre2 s : CStr) :
    ∀ (f1 f2 j k1 : Nat) (fns2 : Option Nat),
      j ≤ s.length + 1 → s.length + 2 ≤ f1 + j → s.length + 2 ≤ f2 + j →
      k1 < pre1.length + j →
      (∀ k2, fns2 = some k2 → k2 < pre2.length + j) →
      (fns2 = none → strncmp_eq (skip_slashes (s.drop j)) "ipfs".toList 4 = false
        ∧ strncmp_eq (skip_slashes (s.drop j)) "ipns".toList 4 = false) →
      (∃ m, remove_path_prefix_loop (pre1 ++ s) L f1 (pre1.length + j) (some k1)
              = .ret (some (pre1.length + m))
          ∧ remove_path_prefix_loop (pre2 ++ s) L f2 (pre2.length + j) fns2
              = .ret (some (pre2.length + m)))
      ∨ (remove_path_prefix_loop (pre1 ++ s) L f1 (pre1.length + j) (some k1) = .undef
          ∧ remove_path_prefix_loop (pre2 ++ s) L f2 (pre2.length + j) fns2 = .undef) := by
  intro f1
  induction f1 with
  | zero => intro f2 j k1 fns2 hj h1; omega
  | succ f1 ih =>
    intro f2 j k1 fns2 hj h1 h2 hk1 hk2 htok
    cases f2 with
    | zero => omega
    | succ f2 =>
      simp only [remove_path_prefix_loop, c_index_append_right, List.drop_append]
      cases hc : c_index s j with
      | none => right; simp
      | some c =>
        by_cases hslash : c = '/'
        · subst hslash
          have hd := c_index_slash s j hc
          have hjlt : j < s.length := by
            by_contra hge
            rw [List.drop_eq_nil_of_le (Nat.le_of_not_lt hge)] at hd
            exact absurd hd (by simp)
          simp only [if_true]
          refine ih f2 (j + 1) k1 fns2 (by omega) (by omega) (by omega) (by omega)
            (fun k2 h => by have := hk2 k2 h; omega) (fun h => ?_)
          have := htok h
          rw [hd] at this
          simpa [skip_slashes] using this
        · have hskip := c_index_skip_slashes s j c hc hslash
          have hjle := c_index_some_le s j c hc
          have hne1 : ¬ pre1.length + j = k1 := by omega
          have ht2 : ¬ (pre2.length + j = fns2.getD (pre2.length + j)
              ∧ (strncmp_eq (s.drop j) "ipfs".toList 4 = true
                ∨ strncmp_eq (s.drop j) "ipns".toList 4 = true)) := by
            cases fns2 with
            | none =>
              have := htok rfl
              rw [hskip] at this
              rintro ⟨_, h | h⟩
              · rw [this.1] at h; exact Bool.false_ne_true h
              · rw [this.2] at h; exact Bool.false_ne_true h
            | some k2 =>
              have := hk2 k2 rfl
              simp only [Option.getD_some]
              omega
          simp only [hslash, if_false, Option.getD_some, hne1, false_and, ht2]
          by_cases hL : strncmp_eq (s.drop j) L L.length = true
          · have hlen := strncmp_eq_length_le _ _ hL
            rw [List.length_drop] at hlen
            simp only [hL, if_true]
            rw [Nat.add_assoc pre1.length, Nat.add_assoc pre2.length]
            refine ih f2 (j + (L.length + 1)) k1 (some (fns2.getD (pre2.length + j)))
              (by omega) (by omega) (by omega) (by omega) (fun k2 h => ?_) (fun h => by simp at h)
            cases fns2 with
            | none =>
              simp only [Option.getD_none, Option.some.injEq] at h
              omega
            | some k =>
              have := hk2 k rfl
              simp only [Option.getD_some, Option.some.injEq] at h
              omega
          · simp only [hL]
            exact Or.inl ⟨j, by simp, by simp⟩

/-- The first four iterations of the normalizer loop on `"/ipfs/" ++ L ++ rest`:
a slash, the token, a slash, and the local identity with the character after
it. -/
theorem remove_path_prefix_loop_ipfs_self (x : Char) (X rest : CStr) (f : Nat) (hx : x ≠ '/') :
    remove_path_prefix_loop ('/' :: 'i' :: 'p' :: 'f' :: 's' :: '/' :: (x :: X ++ rest))
        (x :: X) (f + 4) 0 none
      = remove_path_prefix_loop ('/' :: 'i' :: 'p' :: 'f' :: 's' :: '/' :: (x :: X ++ rest))
        (x :: X) f (6 + ((x :: X).length + 1)) (some 1) := by
  simp only [remove_path_prefix_loop]
  simp [c_index, strncmp_eq, hx]

theorem remove_path_prefix_loop_slash (rest L : CStr) (f : Nat) :
    remove_path_prefix_loop ('/' :: rest) L (f + 1) 0 none
      = remove_path_prefix_loop ('/' :: rest) L f 1 none := by
  simp [remove_path_prefix_loop, c_index]

theorem remove_path_prefix_loop_ipfs_Qm (c L : CStr) (f : Nat)
    (hL : strncmp_eq ('Q' :: 'm' :: c) L L.length = false) :
    remove_path_prefix_loop ('/' :: 'i' :: 'p' :: 'f' :: 's' :: '/' :: 'Q' :: 'm' :: c) L
      (f + 4) 0 none = .ret (some 6) := by
  simp only [remove_path_prefix_loop]
  simp [c_index, strncmp_eq]
  intro h
  exact absurd h (by simpa [strncmp_eq] using hL)

/-- The normalizer on `"/ipfs/" ++ c` for an identifier text `c` that does not
begin with the local identity: the result points at `c`. -/
theorem remove_path_prefix_ipfs_Qm (c L : CStr) (hL : ¬ L <+: 'Q' :: 'm' :: c) :
    ipfs_resolver_remove_path_prefix ('/' :: 'i' :: 'p' :: 'f' :: 's' :: '/' :: 'Q' :: 'm' :: c) L
      = .ret (some 6) := by
  have h4 : strncmp_eq ('Q' :: 'm' :: c) L L.length = false := by
    rw [← Bool.not_eq_true, strncmp_eq_length_iff]; exact hL
  have hlen : ('/' :: 'i' :: 'p' :: 'f' :: 's' :: '/' :: 'Q' :: 'm' :: c).length + 2
      = c.length + 6 + 4 := by simp
  unfold ipfs_resolver_remove_path_prefix
  rw [hlen]
  exact remove_path_prefix_loop_ipfs_Qm c L _ h4

/-- The loop of the normalizer has no exit that yields NULL. -/
theorem remove_path_prefix_loop_ne_null (path L : CStr) :
    ∀ (fuel pos : Nat) (fns : Option Nat),
      remove_path_prefix_loop path L fuel pos fns ≠ .ret none := by
  intro fuel
  induction fuel with
  | zero => intro pos fns; simp [remove_path_prefix_loop]
  | succ fuel ih =>
    intro pos fns
    unfold remove_path_prefix_loop
    cases c_index path pos with
    | none => simp
    | some c =>
      simp only []
      split_ifs
      · exact ih _ _
      · exact ih _ _
      · exact ih _ _
      · simp

/-- Whatever the path and the local identity, the normalizer does not return
NULL. -/
theorem remove_path_prefix_ne_null (path L : CStr) :
    ipfs_resolver_remove_path_prefix path L ≠ .ret none :=
  remove_path_prefix_loop_ne_null path L _ _ _

/-- The loop of the normalizer does not run out of iterations: from a position
inside the string or one past its terminator, `strlen(path) + 2 - pos`
iterations are enough. -/
theorem remove_path_prefix_loop_fuel (path L : CStr) :
    ∀ (fuel pos : Nat) (fns : Option Nat),
      pos ≤ path.length + 1 → path.length + 2 ≤ fuel + pos →
      remove_path_prefix_loop path L fuel pos fns ≠ .nofuel := by
  intro fuel
  induction fuel with
  | zero => intro pos fns h1 h2; omega
  | succ fuel ih =>
    intro pos fns h1 h2
    unfold remove_path_prefix_loop
    cases hc : c_index path pos with
    | none => simp
    | some c =>
      have hle := c_index_some_le path pos c hc
      simp only []
      by_cases hslash : c = '/'
      · subst hslash
        have hd := c_index_slash path pos hc
        have hlt : pos < path.length := by
          by_contra hge
          rw [List.drop_eq_nil_of_le (Nat.le_of_not_lt hge)] at hd
          exact absurd hd (by simp)
        simp only [if_true]
        exact ih _ _ (by omega) (by omega)
      · simp only [hslash, if_false]
        split_ifs with ht hl
        · have h4 : 4 ≤ (path.drop pos).length := by
            rcases ht.2 with h | h
            · exact strncmp_eq_length_le (path.drop pos) "ipfs".toList h
            · exact strncmp_eq_length_le (path.drop pos) "ipns".toList h
          rw [List.length_drop] at h4
          exact ih _ _ (by omega) (by omega)
        · have hlen := strncmp_eq_length_le _ _ hl
          rw [List.length_drop] at hlen
          exact ih _ _ (by omega) (by omega)
        · simp

/-- The normalizer returns a pointer or reads past the terminator; its loop
always ends. -/
theorem remove_path_prefix_ne_nofuel (path L : CStr) :
    ipfs_resolver_remove_path_prefix path L ≠ .nofuel :=
  remove_path_prefix_loop_fuel path L _ _ _ (by omega) (by omega)

/-! ## The resolver -/

theorem resolver_get_fuel_succ_some (ipfs_node : IpfsNode) (fuel : Nat) (path : CStr)
    (p : NodePtr) (w : World) :
    resolver_get_fuel ipfs_node (fuel + 1) path (some p) w
      = resolver_get_local ipfs_node (resolver_get_fuel ipfs_node fuel) path (some p) w := by
  simp [resolver_get_fuel]

theorem resolver_get_fuel_succ_local (ipfs_node : IpfsNode) (fuel : Nat) (path : CStr)
    (w : World) (h : ipfs_resolver_is_remote path ipfs_node.peer_id = false) :
    resolver_get_fuel ipfs_node (fuel + 1) path none w
      = resolver_get_local ipfs_node (resolver_get_fuel ipfs_node fuel) path none w := by
  simp [resolver_get_fuel, h]

/-- The root case of lines 184-209 when the first segment decodes to a stored
node. -/
theorem resolver_get_local_root (ipfs_node : IpfsNode)
    (recurse : CStr → Option NodePtr → World → Resolved) (path rest : CStr) (k : Nat)
    (hash : List Nat) (node : Node) (w : World)
    (hnorm : ipfs_resolver_remove_path_prefix path ipfs_node.peer_id = .ret (some k))
    (hseg : ipfs_resolver_next_path (path.drop k) = some ('Q' :: 'm' :: rest))
    (hdec : ipfs_node.base58_decode ('Q' :: 'm' :: rest) = some hash)
    (hget : ipfs_node.get_by_multihash hash = some node) :
    resolver_get_local ipfs_node recurse path none w
      = if ('Q' :: 'm' :: rest).length = (path.drop k).length then
          .ret (some ⟨w.allocated, node⟩, { w with allocated := w.allocated + 1 })
        else
          recurse ((path.drop k).drop (('Q' :: 'm' :: rest).length + 1))
            (some ⟨w.allocated, node⟩) { w with allocated := w.allocated + 1 } := by
  simp only [resolver_get_local, hnorm, hseg, hdec, hget, World.alloc]
  simp [c_index]

/-- The descent of lines 217-231 when the whole path is the name of a link whose
target is in the store. -/
theorem resolver_get_local_last_link (ipfs_node : IpfsNode)
    (recurse : CStr → Option NodePtr → World → Resolved) (path : CStr) (p : NodePtr)
    (link : NodeLink) (target : Node) (w : World)
    (hseg : ipfs_resolver_next_path path = some path)
    (hdir : ipfs_node.is_directory p.node = true)
    (hlink : p.node.links.find? (fun l => strcmp_eq l.name path) = some link)
    (htarget : ipfs_node.merkledag_get link.hash = some target) :
    resolver_get_local ipfs_node recurse path (some p) w
      = .ret (some ⟨w.allocated, target⟩,
          { allocated := w.allocated + 1, freed := p.addr :: w.freed, io := w.io }) := by
  simp only [resolver_get_local, hseg, hdir, hlink, htarget, World.alloc, World.free]
  simp

/-- The body of the resolver calls `recurse` only on paths shorter than its
own. -/
theorem resolver_get_local_congr (ipfs_node : IpfsNode)
    (rec1 rec2 : CStr → Option NodePtr → World → Resolved) (path : CStr)
    (from_node : Option NodePtr) (w : World)
    (h : ∀ path1 q w1, path1.length < path.length →
      rec1 path1 (some q) w1 = rec2 path1 (some q) w1) :
    resolver_get_local ipfs_node rec1 path from_node w
      = resolver_get_local ipfs_node rec2 path from_node w := by
  unfold resolver_get_local
  cases from_node with
  | none =>
    cases hn : ipfs_resolver_remove_path_prefix path ipfs_node.peer_id with
    | undef => rfl
    | nofuel => rfl
    | ret v =>
      cases v with
      | none => rfl
      | some k =>
        simp only []
        cases hs : ipfs_resolver_next_path (path.drop k) with
        | none => rfl
        | some sec =>
          have hsec := next_path_some _ _ hs
          rw [List.length_drop] at hsec
          simp only []
          split
          · cases hd : ipfs_node.base58_decode sec with
            | none => rfl
            | some hash =>
              simp only []
              cases hg : ipfs_node.get_by_multihash hash with
              | none => rfl
              | some node =>
                simp only [World.alloc]
                split
                · rfl
                · apply h
                  simp only [List.length_drop]
                  omega
          · rfl
  | some p =>
    simp only []
    cases hs : ipfs_resolver_next_path path with
    | none => rfl
    | some sec =>
      have hsec := next_path_some _ _ hs
      simp only []
      split
      · cases hl : p.node.links.find? (fun curr_link => strcmp_eq curr_link.name sec) with
        | none => rfl
        | some link =>
          simp only []
          cases hg : ipfs_node.merkledag_get link.hash with
          | none => rfl
          | some node =>
            simp only [World.alloc]
            split
            · rfl
            · cases hs2 : ipfs_resolver_next_path (path.drop sec.length) with
              | none => rfl
              | some nps =>
                have hnps := next_path_some _ _ hs2
                rw [List.length_drop] at hnps
                simp only []
                apply h
                omega
      · rfl

/-- Fuel beyond the length of the path does not change what a call with a
current node returns. -/
theorem resolver_get_fuel_enough (ipfs_node : IpfsNode) :
    ∀ (f1 f2 : Nat) (path : CStr) (p : NodePtr) (w : World),
      path.length < f1 → path.length < f2 →
      resolver_get_fuel ipfs_node f1 path (some p) w
        = resolver_get_fuel ipfs_node f2 path (some p) w := by
  intro f1
  induction f1 with
  | zero => intro f2 path p w h1; omega
  | succ f1 ih =>
    intro f2 path p w h1 h2
    cases f2 with
    | zero => omega
    | succ f2 =>
      rw [resolver_get_fuel_succ_some, resolver_get_fuel_succ_some]
      apply resolver_get_local_congr
      intro path1 q w1 hlt
      exact ih f2 path1 q w1 (by omega) (by omega)

/-- Without a current node the body of the resolver depends on the path only
through the text the normalizer leaves. -/
theorem resolver_get_local_same_suffix (ipfs_node : IpfsNode)
    (recurse : CStr → Option NodePtr → World → Resolved) (p1 p2 : CStr) (w : World)
    (h : (∃ k1 k2, ipfs_resolver_remove_path_prefix p1 ipfs_node.peer_id = .ret (some k1)
            ∧ ipfs_resolver_remove_path_prefix p2 ipfs_node.peer_id = .ret (some k2)
            ∧ p1.drop k1 = p2.drop k2)
        ∨ ( ipfs_resolver_remove_path_prefix p1 ipfs_node.peer_id = .undef
            ∧ ipfs_resolver_remove_path_prefix p2 ipfs_node.peer_id = .undef)) :
    resolver_get_local ipfs_node recurse p1 none w
      = resolver_get_local ipfs_node recurse p2 none w := by
  unfold resolver_get_local
  rcases h with ⟨k1, k2, h1, h2, h3⟩ | ⟨h1, h2⟩
  · simp only [h1, h2, h3]
  · simp only [h1, h2]

theorem strncmp_eq_append_self (L t : CStr) : strncmp_eq (L ++ t) L L.length = true :=
  (strncmp_eq_length_iff (L ++ t) L).2 (List.prefix_append L t)

/-- C3, amended. For a local identity `X` that is not empty and does not begin
with `'/'`, and a remainder `r` whose first segment begins with neither `ipfs`
nor `ipns`, `ipfs_resolver_get("/ipfs/" ++ X ++ "/" ++ r, NULL)` is not
dispatched to the remote fetcher and returns what local resolution of
`"/" ++ r` returns. -/
theorem self_reference_collapse (ipfs_node : IpfsNode) (r : CStr) (w : World)
    (hne : ipfs_node.peer_id ≠ [])
    (hX : ipfs_node.peer_id.head? ≠ some '/')
    (h1 : ¬ "ipfs".toList <+: skip_slashes r)
    (h2 : ¬ "ipns".toList <+: skip_slashes r) :
    ipfs_resolver_is_remote ("/ipfs/".toList ++ ipfs_node.peer_id ++ '/' :: r)
        ipfs_node.peer_id = false
    ∧ ipfs_resolver_get ipfs_node ("/ipfs/".toList ++ ipfs_node.peer_id ++ '/' :: r) none w
        = local_resolution ipfs_node ('/' :: r) w := by
  obtain ⟨L, hL⟩ : ∃ L, L = ipfs_node.peer_id := ⟨_, rfl⟩
  obtain ⟨x, X, hxX⟩ : ∃ x X, L = x :: X := by
    cases L with
    | nil => exact absurd hL.symm hne
    | cons x X => exact ⟨x, X, rfl⟩
  have hx : x ≠ '/' := by
    intro hx
    apply hX
    rw [← hL, hxX, hx]
    rfl
  have hpath : "/ipfs/".toList ++ ipfs_node.peer_id ++ '/' :: r
      = '/' :: 'i' :: 'p' :: 'f' :: 's' :: '/' :: (L ++ '/' :: r) := by
    rw [hL]; simp
  rw [hpath]
  have hrem : ipfs_resolver_is_remote ('/' :: 'i' :: 'p' :: 'f' :: 's' :: '/' :: (L ++ '/' :: r))
      ipfs_node.peer_id = false := by
    simp [ipfs_resolver_is_remote, skip_slashes, strncmp_eq, ← hL]
  refine ⟨hrem, ?_⟩
  have hp1 : '/' :: 'i' :: 'p' :: 'f' :: 's' :: '/' :: (L ++ '/' :: r)
      = ('/' :: 'i' :: 'p' :: 'f' :: 's' :: '/' :: (L ++ ['/'])) ++ r := by simp
  have hn1 : ipfs_resolver_remove_path_prefix
        ('/' :: 'i' :: 'p' :: 'f' :: 's' :: '/' :: (L ++ '/' :: r)) L
      = remove_path_prefix_loop
          (('/' :: 'i' :: 'p' :: 'f' :: 's' :: '/' :: (L ++ ['/'])) ++ r) L
          (L.length + r.length + 5)
          (('/' :: 'i' :: 'p' :: 'f' :: 's' :: '/' :: (L ++ ['/'])).length + 0) (some 1) := by
    have hlen : ('/' :: 'i' :: 'p' :: 'f' :: 's' :: '/' :: (L ++ '/' :: r)).length + 2
        = (L.length + r.length + 5) + 4 := by simp; omega
    have hpos : ('/' :: 'i' :: 'p' :: 'f' :: 's' :: '/' :: (L ++ ['/'])).length + 0
        = 6 + (L.length + 1) := by simp; omega
    unfold ipfs_resolver_remove_path_prefix
    rw [hlen, hpos, ← hp1, hxX]
    exact remove_path_prefix_loop_ipfs_self x X ('/' :: r) _ hx
  have hn2 : ipfs_resolver_remove_path_prefix ('/' :: r) L
      = remove_path_prefix_loop (['/'] ++ r) L (r.length + 2) (['/'].length + 0) none := by
    unfold ipfs_resolver_remove_path_prefix
    exact remove_path_prefix_loop_slash r L _
  have hshift := remove_path_prefix_loop_shift L
    ('/' :: 'i' :: 'p' :: 'f' :: 's' :: '/' :: (L ++ ['/'])) ['/'] r
    (L.length + r.length + 5) (r.length + 2) 0 1 none (by omega) (by omega) (by omega)
    (by simp) (by simp)
    (fun _ => ⟨by
        rw [← Bool.not_eq_true]
        exact fun h => h1 ((strncmp_eq_length_iff _ "ipfs".toList).1 h), by
        rw [← Bool.not_eq_true]
        exact fun h => h2 ((strncmp_eq_length_iff _ "ipns".toList).1 h)⟩)
  rw [← hn1, ← hn2] at hshift
  subst hL
  unfold ipfs_resolver_get local_resolution
  rw [resolver_get_fuel_succ_local _ _ _ _ hrem]
  have hsame := resolver_get_local_same_suffix ipfs_node
    (resolver_get_fuel ipfs_node
      ('/' :: 'i' :: 'p' :: 'f' :: 's' :: '/' :: (ipfs_node.peer_id ++ '/' :: r)).length)
    ('/' :: 'i' :: 'p' :: 'f' :: 's' :: '/' :: (ipfs_node.peer_id ++ '/' :: r)) ('/' :: r) w
    (by
      rcases hshift with ⟨m, hm1, hm2⟩ | hu
      · refine Or.inl ⟨_, _, hm1, hm2, ?_⟩
        rw [hp1, List.drop_append]
        exact (@List.drop_append _ ['/'] r m).symm
      · exact Or.inr hu)
  rw [hsame]
  apply resolver_get_local_congr
  intro path1 q w1 hlt
  apply resolver_get_fuel_enough
  · simp only [List.length_cons, List.length_append] at hlt ⊢
    omega
  · exact hlt

/-- C2, amended. For an identifier text `c` that begins with `Qm`, has no `'/'`,
does not begin with the local identity and decodes to the identifier of a
stored node, `ipfs_resolver_get(c, NULL)` returns that node, while
`"/ipfs/" ++ c` is classified as remote and `ipfs_resolver_get("/ipfs/" ++ c,
NULL)` is the result of the remote fetcher, which is NULL, with no node fetched
and no external call made. -/
theorem prefixed_identifier_is_remote (ipfs_node : IpfsNode) (c : CStr) (hash : List Nat)
    (node : Node) (w : World)
    (hslash : '/' ∉ c)
    (hpeer : ¬ ipfs_node.peer_id <+: 'Q' :: 'm' :: c)
    (hdec : ipfs_node.base58_decode ('Q' :: 'm' :: c) = some hash)
    (hget : ipfs_node.get_by_multihash hash = some node) :
    ipfs_resolver_get ipfs_node ('Q' :: 'm' :: c) none w
        = .ret (some ⟨w.allocated, node⟩, { w with allocated := w.allocated + 1 })
    ∧ ipfs_resolver_is_remote ("/ipfs/".toList ++ 'Q' :: 'm' :: c) ipfs_node.peer_id = true
    ∧ ipfs_resolver_get ipfs_node ("/ipfs/".toList ++ 'Q' :: 'm' :: c) none w
        = .ret (none, w) := by
  have hpath : "/ipfs/".toList ++ 'Q' :: 'm' :: c
      = '/' :: 'i' :: 'p' :: 'f' :: 's' :: '/' :: 'Q' :: 'm' :: c := by simp
  have h4 : strncmp_eq ('Q' :: 'm' :: c) ipfs_node.peer_id ipfs_node.peer_id.length = false := by
    rw [← Bool.not_eq_true, strncmp_eq_length_iff]; exact hpeer
  have hrem : ipfs_resolver_is_remote ('/' :: 'i' :: 'p' :: 'f' :: 's' :: '/' :: 'Q' :: 'm' :: c)
      ipfs_node.peer_id = true := by
    simp only [ipfs_resolver_is_remote, skip_slashes]
    simp [strncmp_eq, c_index]
    simpa [strncmp_eq] using h4
  rw [hpath]
  refine ⟨?_, hrem, ?_⟩
  · have hseg : ipfs_resolver_next_path (('Q' :: 'm' :: c).drop 0) = some ('Q' :: 'm' :: c) :=
      next_path_last ('Q' :: 'm' :: c) (by simp) (by simp [hslash])
    have hnorm := remove_path_prefix_untouched 'Q' ('m' :: c) ipfs_node.peer_id
      (by decide) (strncmp_Qm_ipfs _) (strncmp_Qm_ipns _) hpeer
    unfold ipfs_resolver_get
    rw [resolver_get_fuel_succ_local _ _ _ _ (is_remote_Qm c ipfs_node.peer_id),
      resolver_get_local_root ipfs_node _ _ c 0 hash node w hnorm hseg hdec hget,
      if_pos (by simp)]
  · have hnorm := remove_path_prefix_ipfs_Qm c ipfs_node.peer_id hpeer
    have hchr : strchr (('/' :: 'i' :: 'p' :: 'f' :: 's' :: '/' :: 'Q' :: 'm' :: c).drop 6) '/'
        = none := strchr_eq_none _ _ (by simp [hslash])
    unfold ipfs_resolver_get
    simp only [resolver_get_fuel, hrem, and_self, if_true, ipfs_resolver_remote_get, hnorm, hchr]

/-- C10. When `c` (a text that begins with `Qm`, has no `'/'`, is left alone by
the normalizer and decodes to the identifier of the stored node `R`) names a
directory-like node `R` whose first link named `a` has its target `T` in the
store, `ipfs_resolver_get(c ++ "/a", NULL)` returns `T`; the only call of
`ipfs_node_free` made on the way is on `R`, and `T` is not released. -/
theorem one_step_traversal_releases_root (ipfs_node : IpfsNode) (c : CStr)
    (hash : List Nat) (R T : Node) (link : NodeLink) (w : World)
    (hslash : '/' ∉ c)
    (hpeer : ¬ ipfs_node.peer_id <+: 'Q' :: 'm' :: c ++ ['/', 'a'])
    (hdec : ipfs_node.base58_decode ('Q' :: 'm' :: c) = some hash)
    (hroot : ipfs_node.get_by_multihash hash = some R)
    (hdir : ipfs_node.is_directory R = true)
    (hlink : R.links.find? (fun l => strcmp_eq l.name ['a']) = some link)
    (htarget : ipfs_node.merkledag_get link.hash = some T) :
    ipfs_resolver_get ipfs_node ('Q' :: 'm' :: c ++ ['/', 'a']) none w
      = .ret (some ⟨w.allocated + 1, T⟩,
          { allocated := w.allocated + 2, freed := w.allocated :: w.freed, io := w.io }) := by
  have hseg : ipfs_resolver_next_path ((('Q' :: 'm' :: c) ++ '/' :: ['a']).drop 0)
      = some ('Q' :: 'm' :: c) :=
    next_path_segment ('Q' :: 'm' :: c) ['a'] (by simp) (by simp [hslash])
  have hlast : ipfs_resolver_next_path ['a'] = some ['a'] := by decide
  have hnorm : ipfs_resolver_remove_path_prefix (('Q' :: 'm' :: c) ++ '/' :: ['a'])
      ipfs_node.peer_id = .ret (some 0) :=
    remove_path_prefix_untouched 'Q' ('m' :: c ++ ['/', 'a']) ipfs_node.peer_id
      (by decide) (strncmp_Qm_ipfs _) (strncmp_Qm_ipns _) hpeer
  have hrem : ipfs_resolver_is_remote (('Q' :: 'm' :: c) ++ '/' :: ['a']) ipfs_node.peer_id
      = false := is_remote_Qm (c ++ ['/', 'a']) ipfs_node.peer_id
  have hdrop : ((('Q' :: 'm' :: c) ++ '/' :: ['a']).drop 0).drop (('Q' :: 'm' :: c).length + 1)
      = ['a'] := by simp
  have hlen : (('Q' :: 'm' :: c) ++ '/' :: ['a']).length = (c.length + 3) + 1 := by simp
  unfold ipfs_resolver_get
  rw [resolver_get_fuel_succ_local _ _ _ _ hrem,
    resolver_get_local_root ipfs_node _ _ c 0 hash R w hnorm hseg hdec hroot, if_neg (by simp),
    hdrop, hlen, resolver_get_fuel_succ_some,
    resolver_get_local_last_link ipfs_node _ ['a'] ⟨w.allocated, R⟩ link T _ hlast hdir hlink
      htarget]

/-! ## The calls the resolver makes -/

/-- One run of the body of the resolver either returns a result without a
recursive call, or ends in exactly one recursive call: on a current node, on a
shorter path, in a state with the same external calls. -/
theorem resolver_get_local_call (ipfs_node : IpfsNode) (path : CStr)
    (from_node : Option NodePtr) (w : World) :
    (∃ res, (∀ recurse, resolver_get_local ipfs_node recurse path from_node w = res)
        ∧ res ≠ .nofuel
        ∧ (from_node ≠ none → ∀ r w1, res = .ret (r, w1) → w1.io = w.io))
    ∨ (∃ path1 q w1,
        (∀ recurse, resolver_get_local ipfs_node recurse path from_node w
          = recurse path1 (some q) w1)
        ∧ path1.length < path.length
        ∧ (0 < path1.length ∨ path1.length + 2 ≤ path.length)
        ∧ w1.io = w.io) := by
  cases from_node with
  | none =>
    cases hn : ipfs_resolver_remove_path_prefix path ipfs_node.peer_id with
    | undef => exact Or.inl ⟨.undef, fun _ => by simp [resolver_get_local, hn], by simp, by simp⟩
    | nofuel => exact absurd hn (remove_path_prefix_ne_nofuel _ _)
    | ret v =>
      cases v with
      | none => exact Or.inl ⟨.undef, fun _ => by simp [resolver_get_local, hn], by simp, by simp⟩
      | some k =>
        cases hs : ipfs_resolver_next_path (path.drop k) with
        | none =>
          exact Or.inl ⟨.ret (none, w), fun _ => by simp [resolver_get_local, hn, hs],
            by simp, by simp⟩
        | some sec =>
          have hsec := next_path_some _ _ hs
          rw [List.length_drop] at hsec
          by_cases hq : c_index sec 0 = some 'Q' ∧ c_index sec 1 = some 'm'
          · cases hd : ipfs_node.base58_decode sec with
            | none =>
              exact Or.inl ⟨.ret (none, w),
                fun _ => by simp only [resolver_get_local, hn, hs, hq, hd]; simp,
                by simp, by simp⟩
            | some hash =>
              cases hg : ipfs_node.get_by_multihash hash with
              | none =>
                exact Or.inl ⟨.ret (none, w),
                  fun _ => by simp only [resolver_get_local, hn, hs, hq, hd, hg]; simp,
                  by simp, by simp⟩
              | some node =>
                by_cases hl : sec.length = (path.drop k).length
                · exact Or.inl ⟨.ret (some ⟨w.allocated, node⟩,
                      { w with allocated := w.allocated + 1 }),
                    fun _ => by
                      simp only [resolver_get_local, hn, hs, hq, hd, hg, World.alloc, hl]
                      simp,
                    by simp, by simp⟩
                · have hl1 : sec.length ≠ path.length - k := by
                    rwa [List.length_drop] at hl
                  refine Or.inr ⟨(path.drop k).drop (sec.length + 1), ⟨w.allocated, node⟩,
                    { w with allocated := w.allocated + 1 }, fun _ => ?_, ?_, ?_, rfl⟩
                  · simp only [resolver_get_local, hn, hs, hq, hd, hg, World.alloc, hl]
                    simp
                  · simp only [List.length_drop]; omega
                  · simp only [List.length_drop]; omega
          · exact Or.inl ⟨.ret (none, w),
              fun _ => by simp only [resolver_get_local, hn, hs, hq]; simp, by simp, by simp⟩
  | some p =>
    cases hs : ipfs_resolver_next_path path with
    | none =>
      exact Or.inl ⟨.ret (none, w), fun _ => by simp [resolver_get_local, hs], by simp,
        fun _ r w1 h => by simp at h; rw [← h.2]⟩
    | some sec =>
      have hsec := next_path_some _ _ hs
      by_cases hdir : ipfs_node.is_directory p.node = true
      · cases hl : p.node.links.find? (fun curr_link => strcmp_eq curr_link.name sec) with
        | none =>
          exact Or.inl ⟨.ret (none, w.free p),
            fun _ => by simp only [resolver_get_local, hs, hdir, hl]; simp, by simp,
            fun _ r w1 h => by simp at h; rw [← h.2]; rfl⟩
        | some link =>
          cases hg : ipfs_node.merkledag_get link.hash with
          | none =>
            exact Or.inl ⟨.ret (none, w),
              fun _ => by simp only [resolver_get_local, hs, hdir, hl, hg]; simp, by simp,
              fun _ r w1 h => by simp at h; rw [← h.2]⟩
          | some node =>
            by_cases hlen : sec.length = path.length
            · exact Or.inl ⟨.ret (some ⟨w.allocated, node⟩,
                  ({ w with allocated := w.allocated + 1 } : World).free p),
                fun _ => by
                  simp only [resolver_get_local, hs, hdir, hl, hg, World.alloc, hlen]
                  simp,
                by simp, fun _ r w1 h => by simp at h; rw [← h.2]; rfl⟩
            · cases hs2 : ipfs_resolver_next_path (path.drop sec.length) with
              | none =>
                exact Or.inl ⟨.undef,
                  fun _ => by
                    simp only [resolver_get_local, hs, hdir, hl, hg, World.alloc, hlen, hs2]
                    simp,
                  by simp, by simp⟩
              | some nps =>
                have hnps := next_path_some _ _ hs2
                rw [List.length_drop] at hnps
                refine Or.inr ⟨nps, ⟨w.allocated, node⟩,
                  ({ w with allocated := w.allocated + 1 } : World).free p,
                  fun _ => ?_, by omega, Or.inl hnps.1, rfl⟩
                simp only [resolver_get_local, hs, hdir, hl, hg, World.alloc, hlen, hs2]
                simp
      · exact Or.inl ⟨.ret (none, w),
          fun _ => by simp only [resolver_get_local, hs, hdir]; simp, by simp,
          fun _ r w1 h => by simp at h; rw [← h.2]⟩

/-- A call with a current node makes no external call. -/
theorem resolver_get_fuel_io (ipfs_node : IpfsNode) :
    ∀ (fuel : Nat) (path : CStr) (p : NodePtr) (w : World) (r : Option NodePtr) (w1 : World),
      resolver_get_fuel ipfs_node fuel path (some p) w = .ret (r, w1) → w1.io = w.io := by
  intro fuel
  induction fuel with
  | zero => intro path p w r w1 h; simp [resolver_get_fuel] at h
  | succ fuel ih =>
    intro path p w r w1 h
    rw [resolver_get_fuel_succ_some] at h
    rcases resolver_get_local_call ipfs_node path (some p) w with
      ⟨res, hres, _, hio⟩ | ⟨path1, q, w2, hcall, _, _, hw2⟩
    · rw [hres] at h
      exact hio (by simp) r w1 h
    · rw [hcall] at h
      rw [ih path1 q w2 r w1 h, hw2]

/-- With a current node, the body of the resolver uses the context only
through the link lookup of the store and the directory test. -/
theorem resolver_get_local_some_context (env1 env2 : IpfsNode)
    (recurse : CStr → Option NodePtr → World → Resolved) (path : CStr) (p : NodePtr)
    (w : World) (hstore : env1.merkledag_get = env2.merkledag_get)
    (hdir : env1.is_directory = env2.is_directory) :
    resolver_get_local env1 recurse path (some p) w
      = resolver_get_local env2 recurse path (some p) w := by
  simp only [resolver_get_local, hstore, hdir]

theorem resolver_get_fuel_some_context (env1 env2 : IpfsNode)
    (hstore : env1.merkledag_get = env2.merkledag_get)
    (hdir : env1.is_directory = env2.is_directory) :
    ∀ (fuel : Nat) (path : CStr) (p : NodePtr) (w : World),
      resolver_get_fuel env1 fuel path (some p) w
        = resolver_get_fuel env2 fuel path (some p) w := by
  intro fuel
  induction fuel with
  | zero => intro path p w; rfl
  | succ fuel ih =>
    intro path p w
    rw [resolver_get_fuel_succ_some, resolver_get_fuel_succ_some,
      resolver_get_local_some_context env1 env2 _ path p w hstore hdir]
    exact resolver_get_local_congr env2 _ _ path (some p) w (fun path1 q w1 _ => ih path1 q w1)

/-! ## Traversal from a current node -/

/-- The descent of lines 217-226 when the target of the matched link is not in
the store. -/
theorem descend_target_missing (ipfs_node : IpfsNode) (s : CStr) (p : NodePtr)
    (link : NodeLink) (w : World)
    (hseg : ipfs_resolver_next_path s = some s)
    (hdir : ipfs_node.is_directory p.node = true)
    (hlink : p.node.links.find? (fun l => strcmp_eq l.name s) = some link)
    (htarget : ipfs_node.merkledag_get link.hash = none) :
    ipfs_resolver_get ipfs_node s (some p) w = .ret (none, w) := by
  unfold ipfs_resolver_get
  rw [resolver_get_fuel_succ_some]
  simp only [resolver_get_local, hseg, hdir, hlink, htarget]
  simp

/-- C12, amended. When the first link named `s` of a directory-like current node
`R` has a target that is absent from the store, `ipfs_resolver_get(s, R)`
returns NULL and `R` has not been released on return: the state is the one
before the call. -/
theorem missing_target_keeps_current_node (ipfs_node : IpfsNode) (s : CStr) (p : NodePtr)
    (link : NodeLink) (w : World)
    (hne : s ≠ []) (hslash : '/' ∉ s)
    (hdir : ipfs_node.is_directory p.node = true)
    (hlink : p.node.links.find? (fun l => strcmp_eq l.name s) = some link)
    (htarget : ipfs_node.merkledag_get link.hash = none) :
    ipfs_resolver_get ipfs_node s (some p) w = .ret (none, w) :=
  descend_target_missing ipfs_node s p link w (next_path_last s hne hslash)
    hdir hlink htarget

/-- C13. With a current node, `ipfs_resolver_get` does not reach the remote
fetcher, whatever the path: its result is the same in any two contexts with the
same link lookup and directory test (whatever their local identity, peerstore,
transport and codec), a call runs the body of lines 176-256 and not the
shortcut, and the state on return records no external call.  The
body of the resolver passes a current node to every recursive call: its result
is the same for any two functions that agree on the calls with a current
node. -/
theorem traversal_never_dispatches_remote (env1 env2 : IpfsNode) (path : CStr) (p : NodePtr)
    (w : World) (hstore : env1.merkledag_get = env2.merkledag_get)
    (hdir : env1.is_directory = env2.is_directory) :
    ipfs_resolver_get env1 path (some p) w = ipfs_resolver_get env2 path (some p) w
    ∧ (∀ fuel, resolver_get_fuel env1 (fuel + 1) path (some p) w
        = resolver_get_local env1 (resolver_get_fuel env1 fuel) path (some p) w)
    ∧ (∀ r w1, ipfs_resolver_get env1 path (some p) w = .ret (r, w1) → w1.io = w.io)
    ∧ (∀ (rec1 rec2 : CStr → Option NodePtr → World → Resolved) (from_node : Option NodePtr),
        (∀ path1 q w1, rec1 path1 (some q) w1 = rec2 path1 (some q) w1) →
        resolver_get_local env1 rec1 path from_node w
          = resolver_get_local env1 rec2 path from_node w) :=
  ⟨resolver_get_fuel_some_context env1 env2 hstore hdir _ path p w,
    fun fuel => resolver_get_fuel_succ_some env1 fuel path p w,
    fun r w1 h => resolver_get_fuel_io env1 _ path p w r w1 h,
    fun rec1 rec2 from_node h =>
      resolver_get_local_congr env1 rec1 rec2 path from_node w (fun path1 q w1 _ => h path1 q w1)⟩

/-- C17. When the links of a directory-like current node are `before`, then
`link`, then `later`, where `link` is named `s` and no link of `before` is,
`ipfs_resolver_get(s, from)` looks up the target of `link` only: it returns
that node when it is in the store and NULL when it is not, whatever the links
of `later` are. -/
theorem first_matching_link_wins (ipfs_node : IpfsNode) (s : CStr) (p : NodePtr)
    (before later : List NodeLink) (link : NodeLink) (w : World)
    (hne : s ≠ []) (hslash : '/' ∉ s)
    (hdir : ipfs_node.is_directory p.node = true)
    (hlinks : p.node.links = before ++ link :: later)
    (hbefore : ∀ l ∈ before, l.name ≠ s) (hname : link.name = s) :
    ipfs_resolver_get ipfs_node s (some p) w
      = match ipfs_node.merkledag_get link.hash with
        | some target =>
          .ret (some ⟨w.allocated, target⟩,
            { allocated := w.allocated + 1, freed := p.addr :: w.freed, io := w.io })
        | none => .ret (none, w) := by
  have hseg := next_path_last s hne hslash
  have hfind : p.node.links.find? (fun l => strcmp_eq l.name s) = some link := by
    have hnone : before.find? (fun l => strcmp_eq l.name s) = none :=
      List.find?_eq_none.2 (fun l hl => by simpa [strcmp_eq] using hbefore l hl)
    rw [hlinks, List.find?_append, hnone]
    simp [strcmp_eq, hname]
  cases htarget : ipfs_node.merkledag_get link.hash with
  | none => exact descend_target_missing ipfs_node s p link w hseg hdir hfind htarget
  | some target =>
    unfold ipfs_resolver_get
    rw [resolver_get_fuel_succ_some]
    exact resolver_get_local_last_link ipfs_node _ s p link target w hseg hdir hfind htarget

theorem strchr_first_segment (s : CStr) (n : Nat) (h : strchr s '/' = some n) :
    (first_segment s).length = n := by
  induction s generalizing n with
  | nil => simp [strchr] at h
  | cons d rest ih =>
    by_cases hd : d = '/'
    · simp only [strchr, hd, if_true, Option.some.injEq] at h
      simp [first_segment, hd, ← h]
    · simp only [strchr, hd, if_false] at h
      cases hm : strchr rest '/' with
      | none => rw [hm] at h; simp at h
      | some m =>
        rw [hm] at h
        simp only [Option.map_some', Option.some.injEq] at h
        have := ih m hm
        simp only [first_segment, List.takeWhile_cons, ne_eq, hd, not_false_eq_true,
          decide_True, if_true, List.length_cons] at this ⊢
        omega

/-- The parsing stage of lines 108-122 on a path that the normalizer leaves at
`id ++ "/" ++ key ++ "/" ++ rest`, with an identifier and a key within the
bound: the request of lines 123-152 is made for `id` and `key`. -/
theorem remote_get_parsed (ipfs_node : IpfsNode) (path : CStr) (k : Nat)
    (id key rest : CStr) (w : World)
    (hnorm : ipfs_resolver_remove_path_prefix path ipfs_node.peer_id = .ret (some k))
    (htemp : path.drop k = id ++ '/' :: (key ++ '/' :: rest))
    (hid : '/' ∉ id) (hkey : '/' ∉ key)
    (hidlen : id.length ≤ 254) (hkeylen : key.length ≤ 254) :
    ipfs_resolver_remote_get ipfs_node path w = remote_get_request ipfs_node id key w := by
  have h1 : strchr (id ++ '/' :: (key ++ '/' :: rest)) '/' = some id.length :=
    strchr_append id _ '/' hid
  have h2 : strchr (key ++ '/' :: rest) '/' = some key.length := strchr_append key _ '/' hkey
  have h3 : (id ++ '/' :: (key ++ '/' :: rest)).drop (id.length + 1) = key ++ '/' :: rest := by
    rw [← List.drop_drop, List.drop_left]; rfl
  have h4 : ¬ id.length > 254 := by omega
  have h5 : ¬ key.length > 254 := by omega
  simp only [ipfs_resolver_remote_get, hnorm, htemp, h1, h3, h2, h4, h5, if_false,
    List.take_left, remote_get_request]

theorem remove_path_prefix_loop_ipns_peer (x : Char) (rest L : CStr) (f : Nat)
    (hx : x ≠ '/') (hL : strncmp_eq (x :: rest) L L.length = false) :
    remove_path_prefix_loop ('/' :: 'i' :: 'p' :: 'n' :: 's' :: '/' :: x :: rest) L
      (f + 4) 0 none = .ret (some 6) := by
  simp only [remove_path_prefix_loop]
  simp [c_index, strncmp_eq, hx]
  intro h
  exact absurd h (by simpa [strncmp_eq] using hL)

/-- The normalizer on `"/ipns/" ++ P ++ rest` for a text `P ++ rest` that begins
with neither a slash nor the local identity: the result points at `P`. -/
theorem remove_path_prefix_ipns_peer (x : Char) (rest L : CStr) (hx : x ≠ '/')
    (hL : ¬ L <+: x :: rest) :
    ipfs_resolver_remove_path_prefix ('/' :: 'i' :: 'p' :: 'n' :: 's' :: '/' :: x :: rest) L
      = .ret (some 6) := by
  have h4 : strncmp_eq (x :: rest) L L.length = false := by
    rw [← Bool.not_eq_true, strncmp_eq_length_iff]; exact hL
  have hlen : ('/' :: 'i' :: 'p' :: 'n' :: 's' :: '/' :: x :: rest).length + 2
      = rest.length + 5 + 4 := by simp
  unfold ipfs_resolver_remove_path_prefix
  rw [hlen]
  exact remove_path_prefix_loop_ipns_peer x rest L _ hx h4

/-- C14. On a path that the normalizer leaves at some text, when the peer
identifier segment of that text (up to its first `'/'`) or the key segment
after it (up to the next `'/'`) is longer than 254 characters,
`ipfs_resolver_remote_get` returns NULL in the state before the call: no
peerstore lookup, connection or write has been made.  An identifier and a key
of at most 254 characters, 254 included, each followed by a `'/'`, pass the
bound: the request is made for them. -/
theorem length_bound_before_io (ipfs_node : IpfsNode) (path : CStr) (k : Nat) (w : World)
    (hnorm : ipfs_resolver_remove_path_prefix path ipfs_node.peer_id = .ret (some k)) :
    ((first_segment (path.drop k)).length > 254
        ∨ (first_segment
            ((path.drop k).drop ((first_segment (path.drop k)).length + 1))).length > 254 →
      ipfs_resolver_remote_get ipfs_node path w = .ret (none, w))
    ∧ (∀ id key rest, path.drop k = id ++ '/' :: (key ++ '/' :: rest) →
        '/' ∉ id → '/' ∉ key → id.length ≤ 254 → key.length ≤ 254 →
        ipfs_resolver_remote_get ipfs_node path w
          = remote_get_request ipfs_node id key w) := by
  refine ⟨fun hlong => ?_, fun id key rest htemp hid hkey hidlen hkeylen =>
    remote_get_parsed ipfs_node path k id key rest w hnorm htemp hid hkey hidlen hkeylen⟩
  simp only [ipfs_resolver_remote_get, hnorm]
  cases h1 : strchr (path.drop k) '/' with
  | none => rfl
  | some n =>
    have hn := strchr_first_segment _ n h1
    simp only []
    by_cases hbig : n > 254
    · simp [hbig]
    · simp only [hbig, if_false]
      cases h2 : strchr ((path.drop k).drop (n + 1)) '/' with
      | none => rfl
      | some m =>
        have hm := strchr_first_segment _ m h2
        rw [← hn] at hm
        have : m > 254 := by
          rcases hlong with h | h
          · omega
          · omega
        simp [this]

/-- C15, amended. For a non-empty peer identifier `P` and a key `K`, each
without `'/'` and of at most 254 characters, where the text at `P` does not
begin with the local identity: on `"/ipns/" ++ P ++ "/" ++ K ++ "/"` the
parsing stage of `ipfs_resolver_remote_get` succeeds and the request is made
for `P` and `K`; on `"/ipns/" ++ P ++ "/" ++ K`, with nothing after `K`, the
function returns NULL in the state before the call, the peerstore not
consulted. -/
theorem remote_key_needs_trailing_slash (ipfs_node : IpfsNode) (P K : CStr) (w : World)
    (hP : P ≠ []) (hPs : '/' ∉ P) (hPlen : P.length ≤ 254)
    (hKs : '/' ∉ K) (hKlen : K.length ≤ 254)
    (hlocal : ¬ ipfs_node.peer_id <+: P ++ '/' :: (K ++ ['/'])) :
    ipfs_resolver_remote_get ipfs_node ("/ipns/".toList ++ P ++ '/' :: (K ++ ['/'])) w
        = remote_get_request ipfs_node P K w
    ∧ ipfs_resolver_remote_get ipfs_node ("/ipns/".toList ++ P ++ '/' :: K) w
        = .ret (none, w) := by
  obtain ⟨x, P1, rfl⟩ : ∃ x P1, P = x :: P1 := by
    cases P with
    | nil => exact absurd rfl hP
    | cons x P1 => exact ⟨x, P1, rfl⟩
  have hx : x ≠ '/' := fun h => hPs (by simp [h])
  have hpath1 : "/ipns/".toList ++ (x :: P1) ++ '/' :: (K ++ ['/'])
      = '/' :: 'i' :: 'p' :: 'n' :: 's' :: '/' :: x :: (P1 ++ '/' :: (K ++ ['/'])) := by simp
  have hpath2 : "/ipns/".toList ++ (x :: P1) ++ '/' :: K
      = '/' :: 'i' :: 'p' :: 'n' :: 's' :: '/' :: x :: (P1 ++ '/' :: K) := by simp
  have hlocal2 : ¬ ipfs_node.peer_id <+: x :: (P1 ++ '/' :: K) := by
    intro h
    apply hlocal
    refine h.trans ⟨['/'], ?_⟩
    simp
  rw [hpath1, hpath2]
  constructor
  · have hnorm := remove_path_prefix_ipns_peer x (P1 ++ '/' :: (K ++ ['/'])) ipfs_node.peer_id
      hx hlocal
    exact remote_get_parsed ipfs_node _ 6 (x :: P1) K [] w hnorm (by simp) hPs hKs hPlen hKlen
  · have hnorm := remove_path_prefix_ipns_peer x (P1 ++ '/' :: K) ipfs_node.peer_id hx hlocal2
    have h1 : strchr ((x :: P1) ++ '/' :: K) '/' = some (x :: P1).length :=
      strchr_append (x :: P1) K '/' hPs
    have h2 : strchr K '/' = none := strchr_eq_none K '/' hKs
    have h3 : ((x :: P1) ++ '/' :: K).drop ((x :: P1).length + 1) = K := by
      rw [← List.drop_drop, List.drop_left]; rfl
    have h4 : ¬ (x :: P1).length > 254 := by omega
    have hdrop : ('/' :: 'i' :: 'p' :: 'n' :: 's' :: '/' :: x :: (P1 ++ '/' :: K)).drop 6
        = (x :: P1) ++ '/' :: K := by simp
    simp only [ipfs_resolver_remote_get, hnorm, hdrop, h1, h3, h2, h4, if_false]

/-- C1. On the example store the premises of the claim hold for `QmR/a/b` and
`QmR/a/b/c`: the root text resolves to the root, and the links `a`, `b` (and
`c`) are followed from directory to directory to the nodes behind `a/b` and
`a/b/c`.  `ipfs_resolver_get` returns NULL for `QmR/a/b` and the node behind
`a/b` for `QmR/a/b/c`. -/
theorem multi_level_resolution_stops_short :
    ipfs_resolver_get demo "QmR".toList none World.init
        = .ret (some ⟨0, demo_root⟩, ⟨1, [], []⟩)
    ∧ follow_links demo demo_root ["a".toList, "b".toList] = some demo_b
    ∧ ipfs_resolver_get demo "QmR/a/b".toList none World.init
        = .ret (none, ⟨2, [1, 0], []⟩)
    ∧ follow_links demo demo_root ["a".toList, "b".toList, "c".toList] = some demo_leaf
    ∧ ipfs_resolver_get demo "QmR/a/b/c".toList none World.init
        = .ret (some ⟨2, demo_b⟩, ⟨3, [1, 0], []⟩) := by
  decide

/-- C2, as stated, fails: `QmR` decodes to the identifier of the stored root and
resolves to it, and `/ipfs/QmR` resolves to NULL. -/
theorem prefix_idempotence_fails :
    ipfs_resolver_get demo "QmR".toList none World.init
        = .ret (some ⟨0, demo_root⟩, ⟨1, [], []⟩)
    ∧ ipfs_resolver_get demo "/ipfs/QmR".toList none World.init = .ret (none, World.init)
    ∧ ipfs_resolver_get demo "/ipfs/QmR".toList none World.init
        ≠ ipfs_resolver_get demo "QmR".toList none World.init := by
  decide

/-- C2, amended, on the example store. -/
theorem prefixed_identifier_is_remote_witness :
    ipfs_resolver_get demo ('Q' :: 'm' :: ['R']) none World.init
        = .ret (some ⟨World.init.allocated, demo_root⟩,
            { World.init with allocated := World.init.allocated + 1 })
    ∧ ipfs_resolver_is_remote ("/ipfs/".toList ++ 'Q' :: 'm' :: ['R']) demo.peer_id = true
    ∧ ipfs_resolver_get demo ("/ipfs/".toList ++ 'Q' :: 'm' :: ['R']) none World.init
        = .ret (none, World.init) :=
  prefixed_identifier_is_remote demo ['R'] [18, 32, 11] demo_root World.init
    (by decide) (by decide) (by decide) (by decide)

/-- C3, as stated, fails.  With local identity `QmL` and remainder
`ipfs/QmL/QmR`, the path `/ipfs/QmL/ipfs/QmL/QmR` resolves to NULL while local
resolution of `/ipfs/QmL/QmR` finds the root; and with a local identity `/QmL`
that begins with a slash, `/ipfs//QmL/QmR` resolves to NULL while local
resolution of `/QmR` finds the root. -/
theorem self_reference_collapse_fails :
    ipfs_resolver_get demo ("/ipfs/".toList ++ demo.peer_id ++ '/' :: "ipfs/QmL/QmR".toList)
        none World.init = .ret (none, World.init)
    ∧ local_resolution demo ('/' :: "ipfs/QmL/QmR".toList) World.init
        = .ret (some ⟨0, demo_root⟩, ⟨1, [], []⟩)
    ∧ ipfs_resolver_get demo_slash_id
        ("/ipfs/".toList ++ demo_slash_id.peer_id ++ '/' :: "QmR".toList) none World.init
        = .ret (none, World.init)
    ∧ local_resolution demo_slash_id ('/' :: "QmR".toList) World.init
        = .ret (some ⟨0, demo_root⟩, ⟨1, [], []⟩) := by
  decide

/-- C3, amended, on the example store with remainder `QmR/a`. -/
theorem self_reference_collapse_witness :
    ipfs_resolver_is_remote ("/ipfs/".toList ++ demo.peer_id ++ '/' :: "QmR/a".toList)
        demo.peer_id = false
    ∧ ipfs_resolver_get demo ("/ipfs/".toList ++ demo.peer_id ++ '/' :: "QmR/a".toList)
        none World.init
        = local_resolution demo ('/' :: "QmR/a".toList) World.init :=
  self_reference_collapse demo "QmR/a".toList World.init
    (by decide) (by decide) (by decide) (by decide)

/-- C4. With local identity `QmA`, the segment after `/ipfs/` in `/ipfs/QmAB` is
`QmAB`: it begins with `Qm` and is not the local identity, and
`ipfs_resolver_is_remote` returns 0. -/
theorem remote_classifier_compares_prefix :
    first_segment "QmAB".toList = "QmAB".toList
    ∧ "Qm".toList <+: first_segment "QmAB".toList
    ∧ first_segment "QmAB".toList ≠ "QmA".toList
    ∧ ipfs_resolver_is_remote "/ipfs/QmAB".toList "QmA".toList = false := by
  decide

/-- C5. On `/abc` the segmenter returns 1 with the segment `/abc`, which contains
a `'/'`; the run of characters other than `'/'` that starts at the first of them
is `abc`. -/
theorem segmenter_copies_leading_slashes :
    ipfs_resolver_next_path "/abc".toList = some "/abc".toList
    ∧ first_segment (skip_slashes "/abc".toList) = "abc".toList := by
  decide

/-- C6. With local identity `QmL`, the first segments of `ipfsfoo/bar` and of
`QmLjunk/bar` are none of the three tokens, and the normalizer returns
`&path[4]` for both: the texts `foo/bar` and `unk/bar`. -/
theorem normalizer_consumes_prefixes :
    first_segment "ipfsfoo/bar".toList = "ipfsfoo".toList
    ∧ ipfs_resolver_remove_path_prefix "ipfsfoo/bar".toList "QmL".toList = .ret (some 4)
    ∧ first_segment "QmLjunk/bar".toList = "QmLjunk".toList
    ∧ ipfs_resolver_remove_path_prefix "QmLjunk/bar".toList "QmL".toList = .ret (some 4) := by
  decide

/-- C7. With local identity `QmL`, the normalizer returns on the empty path, on
`/`, on `///` and on `/ipfs/` a pointer to the terminator of the path, and not
NULL. -/
theorem normalizer_returns_terminator :
    ipfs_resolver_remove_path_prefix [] "QmL".toList = .ret (some 0)
    ∧ ipfs_resolver_remove_path_prefix "/".toList "QmL".toList = .ret (some 1)
    ∧ ipfs_resolver_remove_path_prefix "///".toList "QmL".toList = .ret (some 3)
    ∧ ipfs_resolver_remove_path_prefix "/ipfs/".toList "QmL".toList = .ret (some 6) := by
  decide

/-- C9. On the example store, with local identity `QmL`, the first segment of
`ipfsQmR` is `ipfsQmR`, which is none of the three tokens and does not begin
with `Qm`, and `ipfs_resolver_get("ipfsQmR", NULL)` returns the root node. -/
theorem unslashed_token_is_resolved :
    first_segment "ipfsQmR".toList = "ipfsQmR".toList
    ∧ ¬ "Qm".toList <+: first_segment "ipfsQmR".toList
    ∧ ipfs_resolver_get demo "ipfsQmR".toList none World.init
        = .ret (some ⟨0, demo_root⟩, ⟨1, [], []⟩) := by
  decide

/-- C10 on the example store: `QmR/a` resolves to the node behind `a`, at the
second allocation, and the first allocation, the root, is the only one
released. -/
theorem one_step_traversal_releases_root_witness :
    ipfs_resolver_get demo ('Q' :: 'm' :: ['R'] ++ ['/', 'a']) none World.init
      = .ret (some ⟨World.init.allocated + 1, demo_a⟩,
          { allocated := World.init.allocated + 2,
            freed := World.init.allocated :: World.init.freed, io := World.init.io }) :=
  one_step_traversal_releases_root demo ['R'] [18, 32, 11] demo_root demo_a ⟨['a'], [12]⟩
    World.init (by decide) (by decide) (by decide) (by decide) (by decide) (by decide)
    (by decide)

/-- C11. On the example store the root is directory-like and has no link named
`missing`; `ipfs_resolver_get("missing", R)` with the root `R` at address 0
returns NULL with address 0 released, and `ipfs_resolver_get("QmR/missing",
NULL)` returns NULL with the root it fetched released. -/
theorem link_miss_releases_current_node :
    demo.is_directory demo_root = true
    ∧ demo_root.links.find? (fun l => strcmp_eq l.name "missing".toList) = none
    ∧ ipfs_resolver_get demo "missing".toList (some ⟨0, demo_root⟩) ⟨1, [], []⟩
        = .ret (none, ⟨1, [0], []⟩)
    ∧ ipfs_resolver_get demo "QmR/missing".toList none World.init
        = .ret (none, ⟨1, [0], []⟩) := by
  decide

/-- C12, as stated, fails: the first link named `a` of the directory
`demo_twins` has a target that is not in the example store, and
`ipfs_resolver_get("a", R)` with `R` at address 0 returns NULL with nothing
released. -/
theorem missing_target_release_fails :
    demo.is_directory demo_twins = true
    ∧ demo_twins.links.find? (fun l => strcmp_eq l.name "a".toList) = some ⟨"a".toList, [99]⟩
    ∧ demo.merkledag_get [99] = none
    ∧ ipfs_resolver_get demo "a".toList (some ⟨0, demo_twins⟩) ⟨1, [], []⟩
        = .ret (none, ⟨1, [], []⟩) := by
  decide

/-- C12, amended, on the example store. -/
theorem missing_target_keeps_current_node_witness :
    ipfs_resolver_get demo "a".toList (some ⟨0, demo_twins⟩) ⟨1, [], []⟩
      = .ret (none, ⟨1, [], []⟩) :=
  missing_target_keeps_current_node demo "a".toList ⟨0, demo_twins⟩ ⟨"a".toList, [99]⟩
    ⟨1, [], []⟩ (by decide) (by decide) (by decide) (by decide) (by decide)

/-- C13 on the example store: `/ipfs/QmB/k` is classified as remote, and with the
root as current node it resolves to the same result with and without the
peer `QmB` in the peerstore. -/
theorem traversal_never_dispatches_remote_witness :
    ipfs_resolver_is_remote "/ipfs/QmB/k".toList demo.peer_id = true
    ∧ ipfs_resolver_get demo "/ipfs/QmB/k".toList (some ⟨0, demo_root⟩) ⟨1, [], []⟩
        = ipfs_resolver_get demo_remote "/ipfs/QmB/k".toList (some ⟨0, demo_root⟩)
            ⟨1, [], []⟩ :=
  ⟨by decide,
    (traversal_never_dispatches_remote demo demo_remote "/ipfs/QmB/k".toList ⟨0, demo_root⟩
      ⟨1, [], []⟩ rfl rfl).1⟩

set_option maxRecDepth 20000 in
/-- C14 with a peer identifier of 255 characters: the fetcher returns NULL and
the state is untouched. -/
theorem length_bound_before_io_witness :
    ipfs_resolver_remote_get demo_remote ("/ipns/".toList ++ demo_long_id ++ "/key/".toList)
      World.init = .ret (none, World.init) :=
  (length_bound_before_io demo_remote ("/ipns/".toList ++ demo_long_id ++ "/key/".toList) 6
    World.init (by decide)).1 (Or.inl (by decide))

/-- C15, as stated, fails: with the peer `QmB` in the peerstore, the path
`/ipns/QmB/key` yields NULL with no external call made, while `/ipns/QmB/key/`
yields the node the peer sends, after a peerstore lookup for `QmB` and a
request that carries `key`. -/
theorem remote_key_at_end_of_string_fails :
    ipfs_resolver_remote_get demo_remote "/ipns/QmB/key".toList World.init
        = .ret (none, World.init)
    ∧ ipfs_resolver_remote_get demo_remote "/ipns/QmB/key/".toList World.init
        = .ret (some ⟨0, demo_leaf⟩,
            ⟨1, [], [Event.read, Event.write [107, 101, 121],
              Event.connect "10.0.0.2".toList 4001,
              Event.peerstore_get_peer "QmB".toList]⟩) := by
  decide

/-- C15, amended, for the peer `QmB` and the key `key`. -/
theorem remote_key_needs_trailing_slash_witness :
    ipfs_resolver_remote_get demo_remote
        ("/ipns/".toList ++ "QmB".toList ++ '/' :: ("key".toList ++ ['/'])) World.init
        = remote_get_request demo_remote "QmB".toList "key".toList World.init
    ∧ ipfs_resolver_remote_get demo_remote
        ("/ipns/".toList ++ "QmB".toList ++ '/' :: "key".toList) World.init
        = .ret (none, World.init) :=
  remote_key_needs_trailing_slash demo_remote "QmB".toList "key".toList World.init
    (by decide) (by decide) (by decide) (by decide) (by decide) (by decide)

/-- C17 on two directories with two links named `a`: when the target of the
first one is missing the result is NULL although the target of the second one
is in the store, and when both are in the store the result is the target of
the first one. -/
theorem first_matching_link_wins_witness :
    ipfs_resolver_get demo "a".toList (some ⟨0, demo_twins⟩) ⟨1, [], []⟩
        = .ret (none, ⟨1, [], []⟩)
    ∧ ipfs_resolver_get demo "a".toList (some ⟨0, demo_twins_found⟩) ⟨1, [], []⟩
        = .ret (some ⟨1, demo_b⟩, ⟨2, [0], []⟩) :=
  ⟨first_matching_link_wins demo "a".toList ⟨0, demo_twins⟩ [] [⟨"a".toList, [12]⟩]
      ⟨"a".toList, [99]⟩ ⟨1, [], []⟩ (by decide) (by decide) (by decide) rfl (by decide) rfl,
    first_matching_link_wins demo "a".toList ⟨0, demo_twins_found⟩ [] [⟨"a".toList, [12]⟩]
      ⟨"a".toList, [13]⟩ ⟨1, [], []⟩ (by decide) (by decide) (by decide) rfl (by decide) rfl⟩

/-- C18. On the example store the root has a link `a` whose target is in the
store, and the remainders `/` and `//` have no segment; the calls
`ipfs_resolver_get("a/", R)` and `ipfs_resolver_get("a//", R)` go on with the
pointer `next_path_section` that the segmenter did not write. -/
theorem unchecked_segmenter_result :
    demo_root.links.find? (fun l => strcmp_eq l.name "a".toList) = some ⟨"a".toList, [12]⟩
    ∧ demo.merkledag_get [12] = some demo_a
    ∧ ipfs_resolver_next_path "/".toList = none
    ∧ ipfs_resolver_get demo "a/".toList (some ⟨0, demo_root⟩) ⟨1, [], []⟩ = .undef
    ∧ ipfs_resolver_get demo "a//".toList (some ⟨0, demo_root⟩) ⟨1, [], []⟩ = .undef := by
  decide

/-- C19. With local identity `QmL`, on the paths `QmL` and `/ipfs/QmL` the
normalizer advances to one position past the terminator and reads there:
position 4 of `QmL`, whose terminator is at position 3. -/
theorem normalizer_reads_past_terminator :
    ipfs_resolver_remove_path_prefix "QmL".toList "QmL".toList = .undef
    ∧ ipfs_resolver_remove_path_prefix "/ipfs/QmL".toList "QmL".toList = .undef
    ∧ remove_path_prefix_loop "QmL".toList "QmL".toList 4 0 none
        = remove_path_prefix_loop "QmL".toList "QmL".toList 3 4 (some 0)
    ∧ c_index "QmL".toList 4 = none := by
  decide

end Resolver
